import Mathlib

/-!
Package stdcli: option parsing, settings store and application resolution

A shallow embedding of `cmd/convox/stdcli/stdcli.go` (`ParseOpts`, `ReadSetting`,
`WriteSetting`, `DirApp`) together with the properties of its specification.

Go strings are byte sequences; they are modelled as lists of byte values.  Go
maps are modelled as association lists with pairwise distinct keys.  Slice
expressions are partial (an out-of-range slice is a run-time panic), so they
return an `Option`, and so does every function that uses them.
-/

namespace stdcli

/-! ## Go strings -/

/-- A Go string: an immutable sequence of bytes, each a number below 256. -/
abbrev GoString := List Nat

/-- UTF-8 encoding of one code point (what the Go compiler does to the runes of
a string literal). -/
def utf8Encode (r : Nat) : GoString :=
  if r < 0x80 then [r]
  else if r < 0x800 then [0xC0 + r / 0x40, 0x80 + r % 0x40]
  else if r < 0x10000 then [0xE0 + r / 0x1000, 0x80 + r / 0x40 % 0x40, 0x80 + r % 0x40]
  else [0xF0 + r / 0x40000, 0x80 + r / 0x1000 % 0x40, 0x80 + r / 0x40 % 0x40, 0x80 + r % 0x40]

/-- The bytes of a string literal. -/
def str (s : String) : GoString :=
  s.data.foldr (fun c acc => utf8Encode c.toNat ++ acc) []

/-- Slice expression `s[lo:hi]` on a string: defined when `0 ≤ lo ≤ hi ≤ len(s)`,
a run-time panic (`none`) otherwise. -/
def slice (s : GoString) (lo hi : Int) : Option GoString :=
  if 0 ≤ lo ∧ lo ≤ hi ∧ hi ≤ (s.length : Int) then
    some ((s.take hi.toNat).drop lo.toNat)
  else none

/-- Slice expression `s[lo:]`, short for `s[lo:len(s)]`. -/
def sliceFrom (s : GoString) (lo : Int) : Option GoString :=
  slice s lo (s.length : Int)

namespace strings

/-- Go `strings.HasPrefix(s, prefix)`. -/
def HasPrefix (s pre : GoString) : Bool :=
  pre.isPrefixOf s

/-- Search loop of `strings.Index`: the first offset, counted from `i`, at which
`substr` occurs in the rest of the string, or `-1`. -/
def indexFrom (substr : GoString) : GoString → Int → Int
  | [], i => if substr = [] then i else -1
  | c :: cs, i => if substr.isPrefixOf (c :: cs) then i else indexFrom substr cs (i + 1)

/-- Go `strings.Index(s, substr)`: index of the first instance of `substr` in
`s`, or `-1` when there is none. -/
def Index (s substr : GoString) : Int :=
  indexFrom substr s 0

/-- Go `strings.Contains(s, substr)`, which is `Index(s, substr) >= 0`. -/
def Contains (s substr : GoString) : Bool :=
  decide (0 ≤ Index s substr)

/-- Code points for which Go `unicode.IsSpace` holds: the Latin-1 spaces
`\t \n \v \f \r`, space, U+0085, U+00A0, and the `White_Space` range table
beyond Latin-1 (U+1680, U+2000..U+200A, U+2028, U+2029, U+202F, U+205F, U+3000). -/
def whiteSpace : List Nat :=
  [0x09, 0x0A, 0x0B, 0x0C, 0x0D, 0x20, 0x85, 0xA0, 0x1680,
   0x2000, 0x2001, 0x2002, 0x2003, 0x2004, 0x2005, 0x2006, 0x2007, 0x2008, 0x2009, 0x200A,
   0x2028, 0x2029, 0x202F, 0x205F, 0x3000]

/-- The byte sequences that decode (`utf8.DecodeRune`, `utf8.DecodeLastRune`) to
a white-space rune: the UTF-8 encodings of the white-space code points.  Any
other byte sequence decodes to a rune that is not a space, `RuneError` included. -/
def spaceEncodings : List GoString :=
  whiteSpace.map utf8Encode

/-- Width in bytes of the white-space rune that `s` starts with, `0` when `s`
does not start with one. -/
def leadingSpaceWidth (s : GoString) : Nat :=
  match spaceEncodings.find? (fun e => e.isPrefixOf s) with
  | some e => e.length
  | none => 0

/-- Width in bytes of the white-space rune that `s` ends with, `0` when `s`
does not end with one. -/
def trailingSpaceWidth (s : GoString) : Nat :=
  match spaceEncodings.find? (fun e => e.isSuffixOf s) with
  | some e => e.length
  | none => 0

/-- The loop of `TrimLeftFunc(s, unicode.IsSpace)`: drop white-space runes from
the front until the first rune is not one; `n` bounds the number of runes. -/
def trimLeftLoop : Nat → GoString → GoString
  | 0, s => s
  | n + 1, s =>
    if leadingSpaceWidth s = 0 then s else trimLeftLoop n (s.drop (leadingSpaceWidth s))

/-- The loop of `TrimRightFunc(s, unicode.IsSpace)`: drop white-space runes from
the back until the last rune is not one; `n` bounds the number of runes. -/
def trimRightLoop : Nat → GoString → GoString
  | 0, s => s
  | n + 1, s =>
    if trailingSpaceWidth s = 0 then s
    else trimRightLoop n (s.take (s.length - trailingSpaceWidth s))

/-- Go `strings.TrimSpace(s)`, which is `TrimFunc(s, unicode.IsSpace)`: `s` without
its leading, then without its trailing white-space runes.  A string of `n` bytes
has at most `n` runes, which bounds both loops. -/
def TrimSpace (s : GoString) : GoString :=
  let t := trimLeftLoop s.length s
  trimRightLoop t.length t

/-- Go `strings.Join(a, sep)`. -/
def Join (a : List GoString) (sep : GoString) : GoString :=
  sep.intercalate a

end strings

/-- A string has no leading white space: it does not start with a white-space rune. -/
def NoLeadingSpace (s : GoString) : Prop :=
  ∀ e ∈ strings.spaceEncodings, ¬ e <+: s

/-- A string has no trailing white space: it does not end with a white-space rune. -/
def NoTrailingSpace (s : GoString) : Prop :=
  ∀ e ∈ strings.spaceEncodings, ¬ e <:+ s

instance (s : GoString) : Decidable (NoLeadingSpace s) := by
  unfold NoLeadingSpace; infer_instance

instance (s : GoString) : Decidable (NoTrailingSpace s) := by
  unfold NoTrailingSpace; infer_instance

/-! ## Go maps from string to string -/

/-- A Go `map[string]string`: the entries, one per key. -/
abbrev GoMap := List (GoString × GoString)

namespace GoMap

/-- The keys of a map. -/
def keys (m : GoMap) : List GoString :=
  m.map Prod.fst

/-- The comma-ok lookup `v, ok := m[k]`. -/
def find (m : GoMap) (k : GoString) : Option GoString :=
  List.lookup k m

/-- The index expression `m[k]`: the zero value `""` when `k` has no entry. -/
def index (m : GoMap) (k : GoString) : GoString :=
  (find m k).getD []

/-- The assignment `m[k] = v`: replaces the value of an existing entry, adds an
entry otherwise. -/
def assign : GoMap → GoString → GoString → GoMap
  | [], k, v => [(k, v)]
  | (k0, v0) :: rest, k, v =>
    if k0 = k then (k, v) :: rest else (k0, v0) :: assign rest k v

end GoMap

/-! ## ParseOpts -/

/-- The variables of the loop of `ParseOpts`. -/
structure ParseState where
  options : GoMap
  key : GoString
deriving DecidableEq, Repr

/-- One iteration of the loop of `ParseOpts`, for one token. -/
def parseToken (st : ParseState) (token : GoString) : Option ParseState :=
  let isFlag := strings.HasPrefix token (str "--")
  if isFlag then
    (sliceFrom token 2).bind fun key =>
      if strings.Contains key (str "=") then
        let pivot := strings.Index key (str "=")
        (sliceFrom key (pivot + 1)).bind fun value =>
          (slice key 0 pivot).bind fun key =>
            some { options := st.options.assign key value, key := key }
      else
        some { options := st.options.assign key [], key := key }
  else
    some { options := st.options.assign st.key
             (strings.TrimSpace (st.options.index st.key ++ str " " ++ token)),
           key := st.key }

/-- Go `ParseOpts(args)`: `none` stands for a run-time panic. -/
def ParseOpts (args : List GoString) : Option GoMap :=
  (args.foldlM parseToken { options := [], key := [] }).map ParseState.options

/-- The key a flag token stands for: the part of its remainder (the token without
its first two bytes) before the first `=`, the whole remainder when it has none. -/
def flagKey (token : GoString) : GoString :=
  (token.drop 2).takeWhile (fun b => b ≠ 61)

/-- The inline value of a flag token: the part of its remainder after the first
`=`, empty when it has none. -/
def flagValue (token : GoString) : GoString :=
  ((token.drop 2).dropWhile (fun b => b ≠ 61)).drop 1

/-- One iteration of the loop of `ParseOpts` with the slices resolved (they are
never out of range, see `parseToken_eq`). -/
def parseStep (st : ParseState) (token : GoString) : ParseState :=
  if strings.HasPrefix token (str "--") then
    { options := st.options.assign (flagKey token) (flagValue token), key := flagKey token }
  else
    { options := st.options.assign st.key
        (strings.TrimSpace (st.options.index st.key ++ str " " ++ token)),
      key := st.key }

/-- The first non-empty string of a list, `""` when there is none. -/
def firstNonEmpty (l : List GoString) : GoString :=
  (l.find? (fun s => s ≠ [])).getD []

/-- One map overridden by another: the entry of `over` where it has one, the
entry of `base` otherwise. -/
def overridden (base over : GoMap) (k : GoString) : Option GoString :=
  match over.find k with
  | some v => some v
  | none => base.find k

/-! ## Settings store and application resolution -/

/-- A Go `error` value. -/
abbrev GoError := String

/-- What a path resolves to: a regular file with its contents and permission
bits, a device that discards what is written to it and yields nothing when read
(such as `/dev/null`), or a directory. -/
inductive Node where
  | regular (data : GoString) (mode : Nat)
  | null
  | directory
deriving DecidableEq

/-- Whether the permission bits let the owner read (`0400`). -/
def ownerRead (mode : Nat) : Bool :=
  decide (mode &&& 0o400 ≠ 0)

/-- Whether the permission bits let the owner write (`0200`). -/
def ownerWrite (mode : Nat) : Bool :=
  decide (mode &&& 0o200 ≠ 0)

/-- The state of the file system as an unprivileged process that owns its files
sees it: what each path resolves to (`none` when nothing exists there), whether a
file can be created at a path (its directory exists and can be written), and the
umask of the process. -/
structure FileSystem where
  node : GoString → Option Node
  creatable : GoString → Bool
  umask : Nat

namespace ioutil

/-- Go `ioutil.ReadFile(filename)`: the contents of a regular file the process may
read, nothing from a null device, an error otherwise. -/
def ReadFile (fs : FileSystem) (filename : GoString) : Except GoError GoString :=
  match fs.node filename with
  | none => Except.error "no such file or directory"
  | some (Node.regular data mode) =>
    if ownerRead mode then Except.ok data else Except.error "permission denied"
  | some Node.null => Except.ok []
  | some Node.directory => Except.error "is a directory"

/-- Go `ioutil.WriteFile(filename, data, perm)`, which opens the file with
`O_WRONLY|O_CREATE|O_TRUNC` and writes `data`: the new state and the error.  A
missing file is created with the bits of `perm` that the umask leaves; an
existing regular file keeps its permission bits and needs the write bit; a null
device takes the data and stays as it is.  On failure the state is left as it was. -/
def WriteFile (fs : FileSystem) (filename data : GoString) (perm : Nat) :
    FileSystem × Option GoError :=
  match fs.node filename with
  | none =>
    if fs.creatable filename then
      let created := Node.regular data (perm - (perm &&& fs.umask))
      ({ fs with node := Function.update fs.node filename (some created) }, none)
    else (fs, some "no such file or directory")
  | some (Node.regular _ mode) =>
    if ownerWrite mode then
      ({ fs with node := Function.update fs.node filename (some (Node.regular data mode)) },
        none)
    else (fs, some "permission denied")
  | some Node.null => (fs, none)
  | some Node.directory => (fs, some "is a directory")

end ioutil

namespace path

/-- Go `path.Base(path)`: the last element of the path, trailing slashes removed;
`"."` for the empty path and `"/"` for a path of slashes only. -/
def Base (p : GoString) : GoString :=
  if p = [] then str "."
  else
    let p := (p.reverse.dropWhile (fun b => b = 47)).reverse
    let p := (p.reverse.takeWhile (fun b => b ≠ 47)).reverse
    if p = [] then str "/" else p

end path

/-- The file of a setting: `fmt.Sprintf(".convox/%s", setting)`. -/
def settingPath (setting : GoString) : GoString :=
  str ".convox/" ++ setting

/-- Go `ReadSetting(setting)`. -/
def ReadSetting (fs : FileSystem) (setting : GoString) : GoString :=
  match ioutil.ReadFile fs (settingPath setting) with
  | Except.error _ => []
  | Except.ok value => strings.TrimSpace value

/-- Go `WriteSetting(setting, value)`: the new file-system state and the error. -/
def WriteSetting (fs : FileSystem) (setting value : GoString) : FileSystem × Option GoError :=
  ioutil.WriteFile fs (settingPath setting) value 0o777

/-- What `DirApp` takes from outside this package: `filepath.Abs` (it depends on
the working directory of the process) and `strings.ToLower` (it depends on the
Unicode case tables). -/
structure Runtime where
  Abs : GoString → Except GoError GoString
  ToLower : GoString → GoString

/-- A `*cli.Context` as far as `DirApp` uses it: `c.String(name)`, the value of a
string flag, `""` when it is not set. -/
structure Context where
  String : GoString → GoString

/-- Go `DirApp(c, wd)`: the absolute path, the application identifier, the error. -/
def DirApp (rt : Runtime) (fs : FileSystem) (c : Context) (wd : GoString) :
    GoString × GoString × Option GoError :=
  match rt.Abs wd with
  | Except.error err => ([], [], some err)
  | Except.ok abs =>
    let app := c.String (str "app")
    let app := if app = [] then ReadSetting fs (str "app") else app
    let app := if app = [] then path.Base abs else app
    let app := rt.ToLower app
    (abs, app, none)

/-- ASCII lower-casing, the restriction of `strings.ToLower` to ASCII strings
(used for concrete instances only). -/
def asciiLower (s : GoString) : GoString :=
  s.map fun b => if 65 ≤ b ∧ b ≤ 90 then b + 32 else b

/-- A file system with no file at all, in which every path can be created, with
the usual umask `022`. -/
def emptyFS : FileSystem :=
  { node := fun _ => none, creatable := fun _ => true, umask := 0o022 }

/-- A file system in which `.convox/app` exists with the permission bits `0200`:
its owner may write it and may not read it. -/
def writeOnlyFS : FileSystem :=
  { node := fun p => if p = str ".convox/app" then some (Node.regular (str "old") 0o200)
      else none,
    creatable := fun _ => true, umask := 0o022 }

/-- A file system in which `.convox/../../../../dev/null` resolves to the null
device. -/
def devNullFS : FileSystem :=
  { node := fun p => if p = str ".convox/../../../../dev/null" then some Node.null else none,
    creatable := fun _ => true, umask := 0o022 }

/-- A runtime whose working directory is `/home/dev` and whose lower-casing is
`asciiLower`; relative paths are joined to the working directory as they are. -/
def sampleRuntime : Runtime :=
  { Abs := fun wd => Except.ok (str "/home/dev/" ++ wd), ToLower := asciiLower }

/-- A context with `--app` set to the given value. -/
def appContext (app : GoString) : Context :=
  { String := fun name => if name = str "app" then app else [] }

/-! ## String literals, slices and search -/

theorem str_dashes : str "--" = [45, 45] := by decide

theorem str_equals : str "=" = [61] := by decide

theorem str_space : str " " = [32] := by decide

theorem str_four_dashes : str "----" = [45, 45, 45, 45] := by decide

theorem sliceFrom_nat (s : GoString) (n : Nat) (h : n ≤ s.length) :
    sliceFrom s (n : Int) = some (s.drop n) := by
  unfold sliceFrom slice
  have h1 : (0 : Int) ≤ (n : Int) ∧ (n : Int) ≤ (s.length : Int) ∧
      (s.length : Int) ≤ (s.length : Int) := by omega
  rw [if_pos h1]
  simp

theorem slice_zero_nat (s : GoString) (n : Nat) (h : n ≤ s.length) :
    slice s 0 (n : Int) = some (s.take n) := by
  unfold slice
  have h1 : (0 : Int) ≤ 0 ∧ (0 : Int) ≤ (n : Int) ∧ (n : Int) ≤ (s.length : Int) := by omega
  rw [if_pos h1]
  simp

theorem indexFrom_byte (b : Nat) (s : GoString) (i : Int) :
    strings.indexFrom [b] s i =
      if b ∈ s then i + ((s.takeWhile (fun c => c ≠ b)).length : Int) else -1 := by
  induction s generalizing i with
  | nil => simp [strings.indexFrom]
  | cons c cs ih =>
    unfold strings.indexFrom
    by_cases hc : c = b
    · subst hc
      simp [List.isPrefixOf]
    · have hb : ¬ b = c := fun h => hc h.symm
      have hpre : List.isPrefixOf [b] (c :: cs) = false := by
        simp [List.isPrefixOf, hb]
      have htw : List.takeWhile (fun x => decide (x ≠ b)) (c :: cs) =
          c :: List.takeWhile (fun x => decide (x ≠ b)) cs := by
        rw [List.takeWhile_cons]
        simp [hc]
      rw [hpre, htw, ih]
      by_cases hm : b ∈ cs
      · have hm2 : b ∈ c :: cs := List.mem_cons_of_mem _ hm
        rw [if_pos hm, if_pos hm2]
        simp only [Bool.false_eq_true, if_false, List.length_cons, Nat.cast_add, Nat.cast_one]
        omega
      · have hm2 : b ∉ c :: cs := by
          intro h
          rcases List.mem_cons.mp h with h1 | h1
          · exact hb h1
          · exact hm h1
        rw [if_neg hm, if_neg hm2]
        simp

theorem Index_byte (s : GoString) (b : Nat) :
    strings.Index s [b] =
      if b ∈ s then ((s.takeWhile (fun c => c ≠ b)).length : Int) else -1 := by
  unfold strings.Index
  rw [indexFrom_byte]
  simp

theorem Contains_byte (s : GoString) (b : Nat) :
    strings.Contains s [b] = decide (b ∈ s) := by
  unfold strings.Contains
  rw [Index_byte]
  by_cases hm : b ∈ s <;> simp [hm]

theorem HasPrefix_iff (s pre : GoString) : strings.HasPrefix s pre = true ↔ pre <+: s := by
  unfold strings.HasPrefix
  exact List.isPrefixOf_iff_prefix

theorem dashes_le_length (token : GoString) (h : strings.HasPrefix token (str "--") = true) :
    2 ≤ token.length := by
  rw [HasPrefix_iff, str_dashes] at h
  have := h.length_le
  simpa using this

theorem dropWhile_drop_one_of_not_mem (s : GoString) (b : Nat) (h : b ∉ s) :
    (s.dropWhile (fun c => c ≠ b)).drop 1 = [] := by
  have : s.dropWhile (fun c => c ≠ b) = [] := by
    rw [List.dropWhile_eq_nil_iff]
    intro x hx
    have : x ≠ b := fun e => h (e ▸ hx)
    simpa using this
  rw [this]; rfl

theorem takeWhile_of_not_mem (s : GoString) (b : Nat) (h : b ∉ s) :
    s.takeWhile (fun c => c ≠ b) = s := by
  rw [List.takeWhile_eq_self_iff]
  intro x hx
  have : x ≠ b := fun e => h (e ▸ hx)
  simpa using this

theorem drop_takeWhile_length_succ (s : GoString) (p : Nat → Bool) :
    s.drop ((s.takeWhile p).length + 1) = (s.dropWhile p).drop 1 := by
  induction s with
  | nil => simp
  | cons c cs ih =>
    rw [List.takeWhile_cons, List.dropWhile_cons]
    cases hp : p c
    · simp
    · simpa using ih

theorem take_takeWhile_length (s : GoString) (p : Nat → Bool) :
    s.take (s.takeWhile p).length = s.takeWhile p := by
  induction s with
  | nil => simp
  | cons c cs ih =>
    rw [List.takeWhile_cons]
    cases hp : p c
    · simp
    · simpa using ih

theorem takeWhile_length_lt (s : GoString) (p : Nat → Bool) (h : ∃ x ∈ s, p x = false) :
    (s.takeWhile p).length < s.length := by
  induction s with
  | nil => simp at h
  | cons c cs ih =>
    rw [List.takeWhile_cons]
    cases hp : p c
    · simp
    · obtain ⟨x, hx, hpx⟩ := h
      have hm : ∃ x ∈ cs, p x = false := by
        rcases List.mem_cons.mp hx with h1 | h1
        · rw [h1, hp] at hpx
          exact absurd hpx (by simp)
        · exact ⟨x, h1, hpx⟩
      have := ih hm
      simp only [if_true, List.length_cons]
      omega

/-- The slices of one iteration are never out of range: the iteration always
yields the state `parseStep` describes. -/
theorem parseToken_eq (st : ParseState) (token : GoString) :
    parseToken st token = some (parseStep st token) := by
  unfold parseToken parseStep
  by_cases hf : strings.HasPrefix token (str "--") = true
  · have hlen := dashes_le_length token hf
    have hs : sliceFrom token 2 = some (token.drop 2) := sliceFrom_nat token 2 hlen
    simp only [hf, if_true, hs, Option.some_bind, str_equals, Contains_byte, Index_byte,
      decide_eq_true_eq]
    by_cases hm : 61 ∈ token.drop 2
    · have hlt := takeWhile_length_lt (token.drop 2) (fun c => c ≠ 61) ⟨61, hm, by simp⟩
      have h1 : sliceFrom (token.drop 2)
          ((((token.drop 2).takeWhile (fun c => c ≠ 61)).length : Int) + 1) =
          some ((token.drop 2).drop (((token.drop 2).takeWhile (fun c => c ≠ 61)).length + 1)) := by
        have := sliceFrom_nat (token.drop 2)
          (((token.drop 2).takeWhile (fun c => c ≠ 61)).length + 1) (by omega)
        simpa using this
      have h2 := slice_zero_nat (token.drop 2)
        ((token.drop 2).takeWhile (fun c => c ≠ 61)).length (by omega)
      simp only [hm, if_true, h1, h2, Option.some_bind, drop_takeWhile_length_succ,
        take_takeWhile_length, flagKey, flagValue]
    · simp only [hm, if_false, flagKey, flagValue,
        dropWhile_drop_one_of_not_mem _ _ hm, takeWhile_of_not_mem _ _ hm]
  · simp [hf]

theorem foldlM_parseToken (args : List GoString) (st : ParseState) :
    args.foldlM parseToken st = some (args.foldl parseStep st) := by
  induction args generalizing st with
  | nil => rfl
  | cons t ts ih => simp [List.foldlM, parseToken_eq, ih]

theorem ParseOpts_eq (args : List GoString) :
    ParseOpts args = some (args.foldl parseStep { options := [], key := [] }).options := by
  unfold ParseOpts
  rw [foldlM_parseToken]
  rfl

/-! ## Maps -/

theorem find_assign_self (m : GoMap) (k v : GoString) : (m.assign k v).find k = some v := by
  induction m with
  | nil => simp [GoMap.assign, GoMap.find, List.lookup]
  | cons p rest ih =>
    obtain ⟨k0, v0⟩ := p
    unfold GoMap.assign
    by_cases h : k0 = k
    · simp [h, GoMap.find, List.lookup]
    · have h2 : (k == k0) = false := by
        simpa using fun e : k = k0 => h e.symm
      simp only [h, if_false, GoMap.find, List.lookup, h2]
      exact ih

theorem find_assign_ne (m : GoMap) (k v k2 : GoString) (hne : k2 ≠ k) :
    (m.assign k v).find k2 = m.find k2 := by
  induction m with
  | nil =>
    have h2 : (k2 == k) = false := by simpa using hne
    simp [GoMap.assign, GoMap.find, List.lookup, h2]
  | cons p rest ih =>
    obtain ⟨k0, v0⟩ := p
    unfold GoMap.assign
    by_cases h : k0 = k
    · have h2 : (k2 == k) = false := by simpa using hne
      have h3 : (k2 == k0) = false := by rw [h]; exact h2
      simp [h, GoMap.find, List.lookup, h2]
    · simp only [h, if_false, GoMap.find, List.lookup]
      cases hk : (k2 == k0)
      · exact ih
      · rfl

theorem keys_assign (m : GoMap) (k v : GoString) :
    (m.assign k v).keys = if k ∈ m.keys then m.keys else m.keys ++ [k] := by
  induction m with
  | nil => simp [GoMap.assign, GoMap.keys]
  | cons p rest ih =>
    obtain ⟨k0, v0⟩ := p
    unfold GoMap.assign
    by_cases h : k0 = k
    · simp [h, GoMap.keys]
    · have h2 : ¬ k = k0 := fun e => h e.symm
      simp only [GoMap.keys] at ih
      simp only [h, if_false, GoMap.keys, List.map_cons, ih, List.mem_cons, h2, false_or]
      by_cases hm : k ∈ List.map Prod.fst rest
      · simp [hm]
      · simp [hm]

theorem mem_keys_assign (m : GoMap) (k v k2 : GoString) :
    k2 ∈ (m.assign k v).keys ↔ k2 = k ∨ k2 ∈ m.keys := by
  rw [keys_assign]
  by_cases hm : k ∈ m.keys
  · rw [if_pos hm]
    constructor
    · exact fun h => Or.inr h
    · rintro (h | h)
      · rw [h]; exact hm
      · exact h
  · rw [if_neg hm]
    simp only [List.mem_append, List.mem_singleton]
    tauto

theorem nodup_keys_assign (m : GoMap) (k v : GoString) (h : m.keys.Nodup) :
    (m.assign k v).keys.Nodup := by
  rw [keys_assign]
  by_cases hm : k ∈ m.keys
  · rw [if_pos hm]; exact h
  · rw [if_neg hm]
    rw [List.nodup_append]
    refine ⟨h, List.nodup_singleton k, ?_⟩
    intro a ha hb
    rw [List.mem_singleton] at hb
    exact hm (hb ▸ ha)

theorem find_eq_none_iff (m : GoMap) (k : GoString) : m.find k = none ↔ k ∉ m.keys := by
  induction m with
  | nil => simp [GoMap.find, GoMap.keys]
  | cons p rest ih =>
    obtain ⟨k0, v0⟩ := p
    simp only [GoMap.find, GoMap.keys] at ih
    simp only [GoMap.find, GoMap.keys, List.lookup, List.map_cons, List.mem_cons, not_or]
    cases hk : (k == k0)
    · have : ¬ k = k0 := by simpa using hk
      simp [this, ih]
    · have : k = k0 := by simpa using hk
      simp [this]

theorem index_assign_self (m : GoMap) (k v : GoString) : (m.assign k v).index k = v := by
  simp [GoMap.index, find_assign_self]

/-! ## White space and TrimSpace -/

theorem spaceEncodings_ne_nil : ∀ e ∈ strings.spaceEncodings, e ≠ [] := by decide

set_option maxRecDepth 100000 in
theorem spaceEncodings_prefix_free :
    ∀ e ∈ strings.spaceEncodings, ∀ e2 ∈ strings.spaceEncodings, e <+: e2 → e = e2 := by
  decide

set_option maxRecDepth 100000 in
theorem spaceEncodings_suffix_free :
    ∀ e ∈ strings.spaceEncodings, ∀ e2 ∈ strings.spaceEncodings, e <:+ e2 → e = e2 := by
  decide

theorem space_not_mem_tail : ∀ e ∈ strings.spaceEncodings, 32 ∉ e.tail := by decide

theorem space_not_mem_dropLast : ∀ e ∈ strings.spaceEncodings, 32 ∉ e.dropLast := by decide

theorem space_mem_spaceEncodings : [32] ∈ strings.spaceEncodings := by decide

theorem noLeadingSpace_nil : NoLeadingSpace [] := by
  intro e he hp
  exact spaceEncodings_ne_nil e he (List.prefix_nil.mp hp)

theorem noTrailingSpace_nil : NoTrailingSpace [] := by
  intro e he hp
  exact spaceEncodings_ne_nil e he (List.suffix_nil.mp hp)

theorem leadingSpaceWidth_cases (s : GoString) :
    (strings.leadingSpaceWidth s = 0 ∧ NoLeadingSpace s) ∨
    (∃ e ∈ strings.spaceEncodings, e <+: s ∧ strings.leadingSpaceWidth s = e.length ∧
      0 < e.length) := by
  unfold strings.leadingSpaceWidth
  cases hf : strings.spaceEncodings.find? (fun e => e.isPrefixOf s) with
  | none =>
    left
    refine ⟨rfl, ?_⟩
    intro e he hp
    have := List.find?_eq_none.mp hf e he
    exact this (List.isPrefixOf_iff_prefix.mpr hp)
  | some e =>
    right
    have hmem := List.mem_of_find?_eq_some hf
    have hp := List.find?_some hf
    exact ⟨e, hmem, List.isPrefixOf_iff_prefix.mp hp, rfl,
      List.length_pos.mpr (spaceEncodings_ne_nil e hmem)⟩

theorem trailingSpaceWidth_cases (s : GoString) :
    (strings.trailingSpaceWidth s = 0 ∧ NoTrailingSpace s) ∨
    (∃ e ∈ strings.spaceEncodings, e <:+ s ∧ strings.trailingSpaceWidth s = e.length ∧
      0 < e.length) := by
  unfold strings.trailingSpaceWidth
  cases hf : strings.spaceEncodings.find? (fun e => e.isSuffixOf s) with
  | none =>
    left
    refine ⟨rfl, ?_⟩
    intro e he hp
    have := List.find?_eq_none.mp hf e he
    exact this (List.isSuffixOf_iff_suffix.mpr hp)
  | some e =>
    right
    have hmem := List.mem_of_find?_eq_some hf
    have hp := List.find?_some hf
    exact ⟨e, hmem, List.isSuffixOf_iff_suffix.mp hp, rfl,
      List.length_pos.mpr (spaceEncodings_ne_nil e hmem)⟩

theorem leadingSpaceWidth_of_noLeading (s : GoString) (h : NoLeadingSpace s) :
    strings.leadingSpaceWidth s = 0 := by
  rcases leadingSpaceWidth_cases s with h0 | ⟨e, he, hp, _, _⟩
  · exact h0.1
  · exact absurd hp (h e he)

theorem trailingSpaceWidth_of_noTrailing (s : GoString) (h : NoTrailingSpace s) :
    strings.trailingSpaceWidth s = 0 := by
  rcases trailingSpaceWidth_cases s with h0 | ⟨e, he, hp, _, _⟩
  · exact h0.1
  · exact absurd hp (h e he)

theorem leadingSpaceWidth_append (e s : GoString) (he : e ∈ strings.spaceEncodings) :
    strings.leadingSpaceWidth (e ++ s) = e.length := by
  rcases leadingSpaceWidth_cases (e ++ s) with h0 | ⟨e2, he2, hp, hw, _⟩
  · exact absurd (List.prefix_append e s) (h0.2 e he)
  · have hcmp := List.prefix_or_prefix_of_prefix (List.prefix_append e s) hp
    rcases hcmp with h1 | h1
    · rw [hw, spaceEncodings_prefix_free e he e2 he2 h1]
    · rw [hw, spaceEncodings_prefix_free e2 he2 e he h1]

theorem trimLeftLoop_of_noLeading (n : Nat) (s : GoString) (h : NoLeadingSpace s) :
    strings.trimLeftLoop n s = s := by
  cases n with
  | zero => rfl
  | succ n => simp [strings.trimLeftLoop, leadingSpaceWidth_of_noLeading s h]

theorem trimRightLoop_of_noTrailing (n : Nat) (s : GoString) (h : NoTrailingSpace s) :
    strings.trimRightLoop n s = s := by
  cases n with
  | zero => rfl
  | succ n => simp [strings.trimRightLoop, trailingSpaceWidth_of_noTrailing s h]

theorem trimLeftLoop_append (n : Nat) (e s : GoString) (he : e ∈ strings.spaceEncodings) :
    strings.trimLeftLoop (n + 1) (e ++ s) = strings.trimLeftLoop n s := by
  have hpos : e.length ≠ 0 := by
    have := List.length_pos.mpr (spaceEncodings_ne_nil e he)
    omega
  simp [strings.trimLeftLoop, leadingSpaceWidth_append e s he, hpos]

theorem noLeadingSpace_trimLeftLoop (n : Nat) (s : GoString) (h : s.length ≤ n) :
    NoLeadingSpace (strings.trimLeftLoop n s) := by
  induction n generalizing s with
  | zero =>
    have : s = [] := List.length_eq_zero.mp (by omega)
    subst this
    exact noLeadingSpace_nil
  | succ n ih =>
    unfold strings.trimLeftLoop
    rcases leadingSpaceWidth_cases s with h0 | ⟨e, _, hp, hw, hpos⟩
    · rw [if_pos h0.1]; exact h0.2
    · have hne : strings.leadingSpaceWidth s ≠ 0 := by omega
      rw [if_neg hne]
      apply ih
      rw [List.length_drop]
      omega

theorem noTrailingSpace_trimRightLoop (n : Nat) (s : GoString) (h : s.length ≤ n) :
    NoTrailingSpace (strings.trimRightLoop n s) := by
  induction n generalizing s with
  | zero =>
    have : s = [] := List.length_eq_zero.mp (by omega)
    subst this
    exact noTrailingSpace_nil
  | succ n ih =>
    unfold strings.trimRightLoop
    rcases trailingSpaceWidth_cases s with h0 | ⟨e, _, hp, hw, hpos⟩
    · rw [if_pos h0.1]; exact h0.2
    · have hne : strings.trailingSpaceWidth s ≠ 0 := by omega
      rw [if_neg hne]
      apply ih
      rw [List.length_take]
      omega

theorem trimRightLoop_isPrefix (n : Nat) (s : GoString) : strings.trimRightLoop n s <+: s := by
  induction n generalizing s with
  | zero => exact List.prefix_refl s
  | succ n ih =>
    unfold strings.trimRightLoop
    by_cases h0 : strings.trailingSpaceWidth s = 0
    · rw [if_pos h0]
    · rw [if_neg h0]
      exact (ih _).trans (List.take_prefix _ s)

theorem TrimSpace_noLeading (s : GoString) : NoLeadingSpace (strings.TrimSpace s) := by
  intro e he hp
  have h1 := noLeadingSpace_trimLeftLoop s.length s (Nat.le_refl _)
  exact h1 e he (hp.trans (trimRightLoop_isPrefix _ _))

theorem TrimSpace_noTrailing (s : GoString) : NoTrailingSpace (strings.TrimSpace s) :=
  noTrailingSpace_trimRightLoop _ _ (Nat.le_refl _)

theorem TrimSpace_of_clean (s : GoString) (hl : NoLeadingSpace s) (ht : NoTrailingSpace s) :
    strings.TrimSpace s = s := by
  unfold strings.TrimSpace
  simp only [trimLeftLoop_of_noLeading _ s hl, trimRightLoop_of_noTrailing _ s ht]

theorem clean_iff_TrimSpace_eq (s : GoString) :
    NoLeadingSpace s ∧ NoTrailingSpace s ↔ strings.TrimSpace s = s := by
  constructor
  · exact fun h => TrimSpace_of_clean s h.1 h.2
  · intro h
    have h1 := TrimSpace_noLeading s
    have h2 := TrimSpace_noTrailing s
    rw [h] at h1 h2
    exact ⟨h1, h2⟩

theorem TrimSpace_unicode_examples :
    strings.TrimSpace (str "\u00a0\t a  b\u3000\u2028\n") = str "a  b" ∧
    strings.TrimSpace (str " \u0085 ") = str "" ∧
    strings.TrimSpace [0x85, 0x20, 0xC2] = [0x85, 0x20, 0xC2] ∧
    strings.TrimSpace (str "\u200b x") = str "\u200b x" := by
  decide

theorem TrimSpace_space_cons (t : GoString) (hl : NoLeadingSpace t) (ht : NoTrailingSpace t) :
    strings.TrimSpace (32 :: t) = t := by
  unfold strings.TrimSpace
  have h1 : strings.trimLeftLoop (32 :: t).length (32 :: t) = t := by
    have := trimLeftLoop_append t.length [32] t space_mem_spaceEncodings
    rw [List.length_cons, show (32 :: t) = [32] ++ t from rfl, this]
    exact trimLeftLoop_of_noLeading _ t hl
  simp only [h1, trimRightLoop_of_noTrailing _ t ht]

theorem noLeadingSpace_append_space (acc t : GoString) (hne : acc ≠ [])
    (hl : NoLeadingSpace acc) : NoLeadingSpace (acc ++ 32 :: t) := by
  intro e he hp
  rcases List.prefix_or_prefix_of_prefix hp (List.prefix_append acc (32 :: t)) with h1 | h1
  · exact hl e he h1
  · obtain ⟨r, hr⟩ := h1
    rw [← hr] at hp
    have hp2 : r <+: 32 :: t := (List.prefix_append_right_inj acc).mp hp
    cases r with
    | nil =>
      rw [List.append_nil] at hr
      exact hl e he (hr ▸ List.prefix_refl _)
    | cons c r2 =>
      have hc : c = 32 := by
        obtain ⟨u, hu⟩ := hp2
        simp only [List.cons_append, List.cons.injEq] at hu
        exact hu.1
      apply space_not_mem_tail e he
      rw [← hr, hc]
      cases acc with
      | nil => exact absurd rfl hne
      | cons a acc2 => simp

theorem noTrailingSpace_space_append (acc t : GoString) (hne : t ≠ [])
    (ht : NoTrailingSpace t) : NoTrailingSpace (acc ++ 32 :: t) := by
  intro e he hp
  have hsuf : t <:+ acc ++ 32 :: t :=
    ⟨acc ++ [32], by simp⟩
  rcases List.suffix_or_suffix_of_suffix hp hsuf with h1 | h1
  · exact ht e he h1
  · obtain ⟨r, hr⟩ := h1
    have hp2 : r ++ t <:+ (acc ++ [32]) ++ t := by
      rw [hr]; simpa using hp
    have hp3 : r <:+ acc ++ [32] := by
      obtain ⟨u, hu⟩ := hp2
      rw [← List.append_assoc] at hu
      exact ⟨u, List.append_cancel_right hu⟩
    rcases List.eq_nil_or_concat r with hnil | ⟨r2, c, hrc⟩
    · rw [hnil, List.nil_append] at hr
      exact ht e he (hr ▸ List.suffix_refl _)
    · have hc : c = 32 := by
        obtain ⟨u, hu⟩ := hp3
        rw [hrc, List.concat_eq_append, ← List.append_assoc] at hu
        exact (List.append_inj_right' hu rfl |> List.singleton_inj.mp)
      apply space_not_mem_dropLast e he
      rw [← hr, hrc, hc, List.concat_eq_append]
      rw [List.dropLast_append_of_ne_nil _ hne]
      simp

theorem TrimSpace_append_space (acc t : GoString) (hacc : acc ≠ []) (hl : NoLeadingSpace acc)
    (hne : t ≠ []) (ht : NoTrailingSpace t) :
    strings.TrimSpace (acc ++ 32 :: t) = acc ++ 32 :: t :=
  TrimSpace_of_clean _ (noLeadingSpace_append_space acc t hacc hl)
    (noTrailingSpace_space_append acc t hne ht)

/-! ## The loop of ParseOpts -/

theorem parseStep_flag (st : ParseState) (token : GoString)
    (h : strings.HasPrefix token (str "--") = true) :
    parseStep st token =
      { options := st.options.assign (flagKey token) (flagValue token), key := flagKey token } := by
  unfold parseStep
  rw [if_pos h]

theorem parseStep_value (st : ParseState) (token : GoString)
    (h : strings.HasPrefix token (str "--") = false) :
    parseStep st token =
      { options := st.options.assign st.key
          (strings.TrimSpace (st.options.index st.key ++ 32 :: token)),
        key := st.key } := by
  unfold parseStep
  rw [h, str_space]
  simp

theorem assign_assign (m : GoMap) (k v w : GoString) :
    (m.assign k v).assign k w = m.assign k w := by
  induction m with
  | nil => simp [GoMap.assign]
  | cons p rest ih =>
    obtain ⟨k0, v0⟩ := p
    by_cases h : k0 = k
    · simp [GoMap.assign, h]
    · simp [GoMap.assign, h, ih]

theorem nodup_keys_fold (args : List GoString) (st : ParseState) (h : st.options.keys.Nodup) :
    (args.foldl parseStep st).options.keys.Nodup := by
  induction args generalizing st with
  | nil => exact h
  | cons t ts ih =>
    rw [List.foldl_cons]
    apply ih
    unfold parseStep
    split
    · exact nodup_keys_assign _ _ _ h
    · exact nodup_keys_assign _ _ _ h

/-- Where the keys of the result come from: the initial entries, the initial
current key, or a flag token. -/
theorem keys_fold (args : List GoString) (st : ParseState) :
    ((args.foldl parseStep st).key = st.key ∨
      ∃ t ∈ args, strings.HasPrefix t (str "--") = true ∧
        (args.foldl parseStep st).key = flagKey t) ∧
    ∀ k ∈ (args.foldl parseStep st).options.keys,
      k ∈ st.options.keys ∨ k = st.key ∨
        ∃ t ∈ args, strings.HasPrefix t (str "--") = true ∧ k = flagKey t := by
  induction args generalizing st with
  | nil =>
    refine ⟨Or.inl rfl, ?_⟩
    intro k hk
    exact Or.inl hk
  | cons t ts ih =>
    rw [List.foldl_cons]
    obtain ⟨ihk, ihm⟩ := ih (parseStep st t)
    by_cases hf : strings.HasPrefix t (str "--") = true
    · rw [parseStep_flag st t hf] at ihk ihm ⊢
      constructor
      · right
        rcases ihk with h1 | ⟨u, hu, huf, hk⟩
        · exact ⟨t, List.mem_cons_self _ _, hf, h1⟩
        · exact ⟨u, List.mem_cons_of_mem _ hu, huf, hk⟩
      · intro k hk
        rcases ihm k hk with h1 | h1 | ⟨u, hu, huf, hku⟩
        · rcases (mem_keys_assign _ _ _ _).mp h1 with h2 | h2
          · exact Or.inr (Or.inr ⟨t, List.mem_cons_self _ _, hf, h2⟩)
          · exact Or.inl h2
        · exact Or.inr (Or.inr ⟨t, List.mem_cons_self _ _, hf, h1⟩)
        · exact Or.inr (Or.inr ⟨u, List.mem_cons_of_mem _ hu, huf, hku⟩)
    · have hf2 : strings.HasPrefix t (str "--") = false := by
        simpa using hf
      rw [parseStep_value st t hf2] at ihk ihm ⊢
      constructor
      · rcases ihk with h1 | ⟨u, hu, huf, hk⟩
        · exact Or.inl h1
        · exact Or.inr ⟨u, List.mem_cons_of_mem _ hu, huf, hk⟩
      · intro k hk
        rcases ihm k hk with h1 | h1 | ⟨u, hu, huf, hku⟩
        · rcases (mem_keys_assign _ _ _ _).mp h1 with h2 | h2
          · exact Or.inr (Or.inl h2)
          · exact Or.inl h2
        · exact Or.inr (Or.inl h1)
        · exact Or.inr (Or.inr ⟨u, List.mem_cons_of_mem _ hu, huf, hku⟩)

/-- A sequence of flag tokens: each key holds the inline value of the last token
that carries it, the other keys are untouched. -/
theorem find_fold_flags (args : List GoString) (st : ParseState) (k : GoString)
    (h : ∀ t ∈ args, strings.HasPrefix t (str "--") = true) :
    (args.foldl parseStep st).options.find k =
      match args.reverse.find? (fun t => flagKey t = k) with
      | some t => some (flagValue t)
      | none => st.options.find k := by
  induction args generalizing st with
  | nil => rfl
  | cons t ts ih =>
    have ht := h t (List.mem_cons_self _ _)
    have hts : ∀ u ∈ ts, strings.HasPrefix u (str "--") = true :=
      fun u hu => h u (List.mem_cons_of_mem _ hu)
    rw [List.foldl_cons, ih _ hts, List.reverse_cons, List.find?_append]
    cases hfind : ts.reverse.find? (fun t => flagKey t = k) with
    | some u => rfl
    | none =>
      rw [parseStep_flag st t ht]
      simp only [Option.or, List.find?_singleton, decide_eq_true_eq]
      by_cases hk : flagKey t = k
      · rw [if_pos hk, ← hk]
        exact find_assign_self _ _ _
      · rw [if_neg hk]
        exact find_assign_ne _ _ _ _ (fun e => hk e.symm)

theorem Join_cons_cons (a b : GoString) (l : List GoString) (sep : GoString) :
    strings.Join (a :: b :: l) sep = a ++ sep ++ strings.Join (b :: l) sep := by
  simp [strings.Join, List.intercalate, List.intersperse]

theorem Join_singleton (a sep : GoString) : strings.Join [a] sep = a := by
  simp [strings.Join, List.intercalate, List.intersperse]

/-- A non-empty run of value tokens only rewrites the entry of the current key,
with a trimmed value. -/
theorem fold_values_trimmed (vs : List GoString) (m : GoMap) (k : GoString) (hne : vs ≠ [])
    (h : ∀ t ∈ vs, strings.HasPrefix t (str "--") = false) :
    ∃ x, vs.foldl parseStep { options := m, key := k } =
      { options := m.assign k (strings.TrimSpace x), key := k } := by
  induction vs generalizing m with
  | nil => exact absurd rfl hne
  | cons t ts ih =>
    have ht := h t (List.mem_cons_self _ _)
    have hts : ∀ u ∈ ts, strings.HasPrefix u (str "--") = false :=
      fun u hu => h u (List.mem_cons_of_mem _ hu)
    rw [List.foldl_cons, parseStep_value _ t ht]
    by_cases hnil : ts = []
    · subst hnil
      exact ⟨_, rfl⟩
    · obtain ⟨x, hx⟩ := ih (m.assign k (strings.TrimSpace (m.index k ++ 32 :: t))) hnil hts
      refine ⟨x, ?_⟩
      simp only at hx ⊢
      rw [hx, assign_assign]

/-- A non-empty run of clean value tokens joins them, with single spaces, to the
value the current key already has. -/
theorem fold_values_join (vs : List GoString) (m : GoMap) (k : GoString) (hne : vs ≠ [])
    (hacc : NoLeadingSpace (m.index k))
    (h : ∀ t ∈ vs, t ≠ [] ∧ NoLeadingSpace t ∧ NoTrailingSpace t ∧
      strings.HasPrefix t (str "--") = false) :
    vs.foldl parseStep { options := m, key := k } =
      { options := m.assign k
          (strings.Join (if m.index k = [] then vs else m.index k :: vs) (str " ")),
        key := k } := by
  induction vs generalizing m with
  | nil => exact absurd rfl hne
  | cons t ts ih =>
    obtain ⟨htne, htl, htt, htf⟩ := h t (List.mem_cons_self _ _)
    have hts : ∀ u ∈ ts, u ≠ [] ∧ NoLeadingSpace u ∧ NoTrailingSpace u ∧
        strings.HasPrefix u (str "--") = false :=
      fun u hu => h u (List.mem_cons_of_mem _ hu)
    rw [List.foldl_cons, parseStep_value _ t htf]
    simp only
    have htrim : strings.TrimSpace (m.index k ++ 32 :: t) =
        if m.index k = [] then t else m.index k ++ 32 :: t := by
      by_cases hz : m.index k = []
      · rw [if_pos hz, hz, List.nil_append]
        exact TrimSpace_space_cons t htl htt
      · rw [if_neg hz]
        exact TrimSpace_append_space _ t hz hacc htne htt
    have hval_ne : strings.TrimSpace (m.index k ++ 32 :: t) ≠ [] := by
      rw [htrim]
      by_cases hz : m.index k = []
      · rw [if_pos hz]; exact htne
      · rw [if_neg hz]; simp
    by_cases hnil : ts = []
    · subst hnil
      rw [List.foldl_nil, htrim]
      by_cases hz : m.index k = []
      · simp only [hz, if_true, Join_singleton]
      · simp only [hz, if_false, Join_cons_cons, Join_singleton, str_space]
        simp
    · have hidx := index_assign_self m k (strings.TrimSpace (m.index k ++ 32 :: t))
      have hacc2 : NoLeadingSpace
          ((m.assign k (strings.TrimSpace (m.index k ++ 32 :: t))).index k) := by
        rw [hidx]
        exact TrimSpace_noLeading _
      rw [ih _ hnil hacc2 hts, assign_assign, hidx, if_neg hval_ne, htrim]
      obtain ⟨u, us, hus⟩ := List.exists_cons_of_ne_nil hnil
      subst hus
      by_cases hz : m.index k = []
      · simp only [hz, if_true]
      · simp only [hz, if_false, Join_cons_cons, str_space]
        simp

theorem find_assign_overridden (m0 m1 m2 : GoMap) (a v : GoString)
    (h : ∀ k, m1.find k = overridden m0 m2 k) (k : GoString) :
    (m1.assign a v).find k = overridden m0 (m2.assign a v) k := by
  by_cases hk : k = a
  · subst hk
    simp [overridden, find_assign_self]
  · rw [find_assign_ne _ _ _ _ hk, h k]
    unfold overridden
    rw [find_assign_ne _ _ _ _ hk]

/-- Running the loop over a flag-led segment from any state gives the state's
entries overridden by what the segment yields on its own, and the same current key. -/
theorem fold_flag_led (ys : List GoString) (st : ParseState)
    (h : ∀ t, ys.head? = some t → strings.HasPrefix t (str "--") = true) :
    (∀ k, (ys.foldl parseStep st).options.find k =
      overridden st.options (ys.foldl parseStep { options := [], key := [] }).options k) ∧
    (ys ≠ [] →
      (ys.foldl parseStep st).key = (ys.foldl parseStep { options := [], key := [] }).key ∧
      ∃ v, (ys.foldl parseStep { options := [], key := [] }).options.find
        (ys.foldl parseStep { options := [], key := [] }).key = some v) := by
  induction ys using List.reverseRecOn with
  | nil =>
    refine ⟨?_, fun hne => absurd rfl hne⟩
    intro k
    simp [overridden, GoMap.find]
  | append_singleton l t ih =>
    have hl : ∀ u, l.head? = some u → strings.HasPrefix u (str "--") = true := by
      intro u hu
      apply h u
      cases l with
      | nil => simp at hu
      | cons a l2 => simpa using hu
    obtain ⟨ih1, ih2⟩ := ih hl
    have hshape : ∃ a v,
        parseStep (l.foldl parseStep st) t =
          { options := (l.foldl parseStep st).options.assign a v, key := a } ∧
        parseStep (l.foldl parseStep { options := [], key := [] }) t =
          { options := (l.foldl parseStep { options := [], key := [] }).options.assign a v,
            key := a } := by
      by_cases hf : strings.HasPrefix t (str "--") = true
      · exact ⟨flagKey t, flagValue t, parseStep_flag _ t hf, parseStep_flag _ t hf⟩
      · have hf2 : strings.HasPrefix t (str "--") = false := by simpa using hf
        have hne : l ≠ [] := by
          intro hnil
          subst hnil
          exact hf (h t rfl)
        obtain ⟨hkey, v, hv⟩ := ih2 hne
        have hidx : (l.foldl parseStep st).options.index (l.foldl parseStep st).key =
            (l.foldl parseStep { options := [], key := [] }).options.index
              (l.foldl parseStep { options := [], key := [] }).key := by
          unfold GoMap.index
          rw [hkey, ih1, hv]
          simp [overridden, hv]
        refine ⟨(l.foldl parseStep { options := [], key := [] }).key, _, ?_,
          parseStep_value _ t hf2⟩
        rw [parseStep_value _ t hf2, hidx, hkey]
    obtain ⟨a, v, h1, h2⟩ := hshape
    simp only [List.foldl_append, List.foldl_cons, List.foldl_nil]
    rw [h1, h2]
    refine ⟨fun k => find_assign_overridden _ _ _ a v ih1 k, fun _ => ⟨rfl, v, ?_⟩⟩
    exact find_assign_self _ _ _

theorem dropWhile_of_mem (r : GoString) (b : Nat) (h : b ∈ r) :
    r.dropWhile (fun c => c ≠ b) = b :: (r.dropWhile (fun c => c ≠ b)).drop 1 := by
  induction r with
  | nil => simp at h
  | cons c cs ih =>
    rw [List.dropWhile_cons]
    by_cases hc : c = b
    · simp [hc]
    · have hm : b ∈ cs := by
        rcases List.mem_cons.mp h with h1 | h1
        · exact absurd h1.symm hc
        · exact h1
      have hd : decide (c ≠ b) = true := by simpa using hc
      rw [if_pos hd]
      exact ih hm

/-- A flag token of the form `--k=v` is `--`, its key, `=`, its inline value, and
its key has no `=`. -/
theorem flag_token_split (t : GoString) (hf : strings.HasPrefix t (str "--") = true)
    (hc : strings.Contains (t.drop 2) (str "=") = true) :
    t = str "--" ++ flagKey t ++ str "=" ++ flagValue t ∧
      strings.Contains (flagKey t) (str "=") = false := by
  rw [str_equals, Contains_byte, decide_eq_true_eq] at hc
  constructor
  · have h1 : t = t.take 2 ++ t.drop 2 := (List.take_append_drop 2 t).symm
    have h2 : t.take 2 = [45, 45] := by
      rw [HasPrefix_iff, str_dashes] at hf
      obtain ⟨u, hu⟩ := hf
      rw [← hu]
      rfl
    have h3 : t.drop 2 = (t.drop 2).takeWhile (fun c => c ≠ 61) ++
        (t.drop 2).dropWhile (fun c => c ≠ 61) :=
      (List.takeWhile_append_dropWhile _ _).symm
    have h4 := dropWhile_of_mem (t.drop 2) 61 hc
    unfold flagKey flagValue
    rw [str_dashes, str_equals, List.append_assoc, List.append_assoc, List.singleton_append,
      ← h4, ← h3, ← h2]
    exact h1
  · rw [str_equals, Contains_byte, decide_eq_false_iff_not]
    intro hm
    have := List.mem_takeWhile_imp hm
    simp at this

/-! ## Properties of ParseOpts -/

/-- C1: for a token sequence in which every token has the form `--k=v` (it starts
with `--` and the rest contains `=`), every token is `--`, its key, `=`, its value
with no `=` in the key, and ParseOpts returns a mapping with exactly one entry per
distinct key, each key holding the part after the first `=` of the last token that
carries it; `ParseOpts(["--foo=1", "--bar=2"])` is `{"foo": "1", "bar": "2"}` and
`ParseOpts(["--flag="])` is `{"flag": ""}`. -/
theorem ParseOpts_key_value_flags (args : List GoString)
    (h : ∀ t ∈ args, strings.HasPrefix t (str "--") = true ∧
      strings.Contains (t.drop 2) (str "=") = true) :
    (∀ t ∈ args, t = str "--" ++ flagKey t ++ str "=" ++ flagValue t ∧
      strings.Contains (flagKey t) (str "=") = false) ∧
    (∃ m, ParseOpts args = some m ∧
      m.keys.Nodup ∧
      (∀ k, k ∈ m.keys ↔ k ∈ args.map flagKey) ∧
      m.length = (args.map flagKey).dedup.length ∧
      ∀ k, m.find k = (args.reverse.find? (fun t => flagKey t = k)).map flagValue) ∧
    ParseOpts [str "--foo=1", str "--bar=2"] = some [(str "foo", str "1"), (str "bar", str "2")] ∧
    ParseOpts [str "--flag="] = some [(str "flag", str "")] := by
  refine ⟨fun t ht => flag_token_split t (h t ht).1 (h t ht).2, ?_, by decide, by decide⟩
  have hflag : ∀ t ∈ args, strings.HasPrefix t (str "--") = true := fun t ht => (h t ht).1
  have hfind : ∀ k, (args.foldl parseStep { options := [], key := [] }).options.find k =
      (args.reverse.find? (fun t => flagKey t = k)).map flagValue := by
    intro k
    rw [find_fold_flags args _ k hflag]
    cases args.reverse.find? (fun t => flagKey t = k) <;> rfl
  have hnodup : (args.foldl parseStep { options := [], key := [] }).options.keys.Nodup :=
    nodup_keys_fold args _ List.nodup_nil
  have hmem : ∀ k, k ∈ (args.foldl parseStep { options := [], key := [] }).options.keys ↔
      k ∈ args.map flagKey := by
    intro k
    have hk := hfind k
    cases hf : args.reverse.find? (fun t => flagKey t = k) with
    | none =>
      rw [hf] at hk
      have h1 := (find_eq_none_iff _ k).mp hk
      have h2 : k ∉ args.map flagKey := by
        intro hin
        obtain ⟨t, ht, htk⟩ := List.mem_map.mp hin
        have := List.find?_eq_none.mp hf t (List.mem_reverse.mpr ht)
        simp [htk] at this
      exact ⟨fun x => absurd x h1, fun x => absurd x h2⟩
    | some t =>
      rw [hf] at hk
      have h1 : k ∈ (args.foldl parseStep { options := [], key := [] }).options.keys := by
        by_contra hn
        rw [(find_eq_none_iff _ k).mpr hn] at hk
        simp at hk
      have h2 : k ∈ args.map flagKey := by
        have ht := List.mem_reverse.mp (List.mem_of_find?_eq_some hf)
        have hp := List.find?_some hf
        simp only [decide_eq_true_eq] at hp
        exact List.mem_map.mpr ⟨t, ht, hp⟩
      exact ⟨fun _ => h2, fun _ => h1⟩
  refine ⟨_, ParseOpts_eq args, hnodup, hmem, ?_, hfind⟩
  have hperm : (args.foldl parseStep { options := [], key := [] }).options.keys.Perm
      (args.map flagKey).dedup :=
    (List.perm_ext_iff_of_nodup hnodup (List.nodup_dedup _)).mpr
      (fun k => (hmem k).trans List.mem_dedup.symm)
  have := hperm.length_eq
  simpa [GoMap.keys] using this

/-- Witness for C1: three `--k=v` tokens, two of them with the key `foo`. -/
theorem ParseOpts_key_value_flags_witness :
    (∀ t ∈ [str "--foo=1", str "--bar=2", str "--foo=3=4"],
      strings.HasPrefix t (str "--") = true ∧
        strings.Contains (t.drop 2) (str "=") = true) ∧
    ∃ m, ParseOpts [str "--foo=1", str "--bar=2", str "--foo=3=4"] = some m ∧
      m.keys.Nodup ∧
      (∀ k, k ∈ m.keys ↔ k ∈ [str "--foo=1", str "--bar=2", str "--foo=3=4"].map flagKey) ∧
      m.length = ([str "--foo=1", str "--bar=2", str "--foo=3=4"].map flagKey).dedup.length ∧
      ∀ k, m.find k =
        ([str "--foo=1", str "--bar=2", str "--foo=3=4"].reverse.find?
          (fun t => flagKey t = k)).map flagValue :=
  ⟨by decide,
    (ParseOpts_key_value_flags [str "--foo=1", str "--bar=2", str "--foo=3=4"] (by decide)).2.1⟩

/-- C2: for a key `k` without `=` and value tokens `t1..tn`, each non-empty, without
leading or trailing white space and not starting with `--` (single-dash tokens
included), `ParseOpts(["--"+k, t1, ..., tn])` is the one-entry mapping from `k` to
the tokens joined with single spaces (to `""` when there is none);
`ParseOpts(["--foo", "bar", "baz"])` is `{"foo": "bar baz"}`. -/
theorem ParseOpts_flag_then_values (k : GoString) (vs : List GoString)
    (hk : strings.Contains k (str "=") = false)
    (hvs : ∀ t ∈ vs, t ≠ [] ∧ NoLeadingSpace t ∧ NoTrailingSpace t ∧
      strings.HasPrefix t (str "--") = false) :
    ParseOpts ((str "--" ++ k) :: vs) = some [(k, strings.Join vs (str " "))] ∧
    ParseOpts [str "--foo", str "bar", str "baz"] = some [(str "foo", str "bar baz")] ∧
    ParseOpts [str "--foo", str "-x", str "-y"] = some [(str "foo", str "-x -y")] := by
  refine ⟨?_, by decide, by decide⟩
  rw [str_equals, Contains_byte, decide_eq_false_iff_not] at hk
  have hflag : strings.HasPrefix (str "--" ++ k) (str "--") = true := by
    rw [HasPrefix_iff]
    exact List.prefix_append _ _
  have hkey : flagKey (str "--" ++ k) = k := by
    unfold flagKey
    rw [str_dashes]
    exact takeWhile_of_not_mem k 61 hk
  have hval : flagValue (str "--" ++ k) = [] := by
    unfold flagValue
    rw [str_dashes]
    exact dropWhile_drop_one_of_not_mem k 61 hk
  rw [ParseOpts_eq, List.foldl_cons, parseStep_flag _ _ hflag, hkey, hval]
  by_cases hnil : vs = []
  · subst hnil
    rfl
  · have hacc : NoLeadingSpace (GoMap.index (GoMap.assign [] k []) k) := by
      rw [index_assign_self]
      exact noLeadingSpace_nil
    rw [fold_values_join vs _ k hnil hacc hvs, index_assign_self]
    simp [GoMap.assign]

/-- Witness for C2: a flag followed by a single-dash token and a word. -/
theorem ParseOpts_flag_then_values_witness :
    strings.Contains (str "name") (str "=") = false ∧
    (∀ t ∈ [str "-x", str "web"], t ≠ [] ∧ NoLeadingSpace t ∧ NoTrailingSpace t ∧
      strings.HasPrefix t (str "--") = false) ∧
    ParseOpts ((str "--" ++ str "name") :: [str "-x", str "web"]) =
      some [(str "name", strings.Join [str "-x", str "web"] (str " "))] :=
  ⟨by decide, by decide,
    (ParseOpts_flag_then_values (str "name") [str "-x", str "web"] (by decide) (by decide)).1⟩

/-- C3, counterexample: the token `----foo` is a flag token whose remainder is
`--foo`, so the mapping has the key `--foo`, which starts with `--`. -/
theorem ParseOpts_key_with_dashes :
    ParseOpts [str "----foo"] = some [(str "--foo", str "")] ∧
    ∃ k ∈ GoMap.keys [(str "--foo", str "")], strings.HasPrefix k (str "--") = true := by
  decide

/-- C3, amended: for every token sequence in which no token starts with `----`, no
key of the mapping returned by ParseOpts starts with `--`. -/
theorem ParseOpts_keys_without_dashes (args : List GoString)
    (h : ∀ t ∈ args, strings.HasPrefix t (str "----") = false) :
    ∃ m, ParseOpts args = some m ∧ ∀ k ∈ m.keys, strings.HasPrefix k (str "--") = false := by
  refine ⟨_, ParseOpts_eq args, ?_⟩
  intro k hk
  rcases (keys_fold args { options := [], key := [] }).2 k hk with h1 | h1 | ⟨t, ht, hf, hkt⟩
  · simp [GoMap.keys] at h1
  · rw [h1]
    decide
  · by_contra hcon
    have hpre : strings.HasPrefix k (str "--") = true := by simpa using hcon
    rw [HasPrefix_iff, str_dashes, hkt] at hpre
    have h2 : [45, 45] <+: t.drop 2 := hpre.trans (List.takeWhile_prefix _)
    rw [HasPrefix_iff, str_dashes] at hf
    obtain ⟨u, hu⟩ := hf
    have h4 : strings.HasPrefix t (str "----") = true := by
      rw [HasPrefix_iff, str_four_dashes, ← hu]
      rw [← hu] at h2
      obtain ⟨w, hw⟩ := h2
      have hw2 : u = [45, 45] ++ w := by simpa using hw.symm
      exact ⟨w, by rw [hw2]; rfl⟩
    rw [h t ht] at h4
    exact absurd h4 (by simp)

/-- Witness for C3 as amended: flags, a single-dash token and a lone `--`. -/
theorem ParseOpts_keys_without_dashes_witness :
    (∀ t ∈ [str "--foo=--1", str "-x", str "--", str "---bar"],
      strings.HasPrefix t (str "----") = false) ∧
    ∃ m, ParseOpts [str "--foo=--1", str "-x", str "--", str "---bar"] = some m ∧
      ∀ k ∈ m.keys, strings.HasPrefix k (str "--") = false :=
  ⟨by decide,
    ParseOpts_keys_without_dashes [str "--foo=--1", str "-x", str "--", str "---bar"]
      (by decide)⟩

/-- C4: for a non-empty token sequence in which no token starts with `--`, ParseOpts
returns a mapping with exactly one entry, whose key is the empty string; when every
token is non-empty and has no leading or trailing white space its value is the
tokens joined with single spaces; `ParseOpts(["loose", "token"])` is
`{"": "loose token"}`. -/
theorem ParseOpts_loose_tokens (args : List GoString) (hne : args ≠ [])
    (h : ∀ t ∈ args, strings.HasPrefix t (str "--") = false) :
    (∃ v, ParseOpts args = some [(str "", v)] ∧
      ((∀ t ∈ args, t ≠ [] ∧ NoLeadingSpace t ∧ NoTrailingSpace t) →
        v = strings.Join args (str " "))) ∧
    ParseOpts [str "loose", str "token"] = some [(str "", str "loose token")] := by
  refine ⟨?_, by decide⟩
  obtain ⟨x, hx⟩ := fold_values_trimmed args [] [] hne h
  refine ⟨strings.TrimSpace x, ?_, ?_⟩
  · rw [ParseOpts_eq, hx]
    rfl
  · intro hclean
    have hall : ∀ t ∈ args, t ≠ [] ∧ NoLeadingSpace t ∧ NoTrailingSpace t ∧
        strings.HasPrefix t (str "--") = false :=
      fun t ht => ⟨(hclean t ht).1, (hclean t ht).2.1, (hclean t ht).2.2, h t ht⟩
    have hj := fold_values_join args [] [] hne noLeadingSpace_nil hall
    rw [hx] at hj
    have hopt := congrArg ParseState.options hj
    simp only [GoMap.assign, GoMap.index, GoMap.find, List.lookup, Option.getD_none,
      if_true, List.cons.injEq, Prod.mk.injEq, and_true, true_and] at hopt
    exact hopt

/-- Witness for C4: three tokens, one of them with a single dash. -/
theorem ParseOpts_loose_tokens_witness :
    [str "a", str "-b", str "c d"] ≠ [] ∧
    (∀ t ∈ [str "a", str "-b", str "c d"], strings.HasPrefix t (str "--") = false) ∧
    ∃ v, ParseOpts [str "a", str "-b", str "c d"] = some [(str "", v)] ∧
      ((∀ t ∈ [str "a", str "-b", str "c d"],
          t ≠ [] ∧ NoLeadingSpace t ∧ NoTrailingSpace t) →
        v = strings.Join [str "a", str "-b", str "c d"] (str " ")) :=
  ⟨by decide, by decide,
    (ParseOpts_loose_tokens [str "a", str "-b", str "c d"] (by decide) (by decide)).1⟩

/-- C5: ParseOpts is total: for every token sequence it returns a mapping, no
iteration of its loop takes a slice out of range (`token[2:]`, `key[pivot+1:]`,
`key[0:pivot]`), and for the empty sequence it returns the empty mapping. -/
theorem ParseOpts_total :
    (∀ args : List GoString, ∃ m, ParseOpts args = some m) ∧
    (∀ (st : ParseState) (token : GoString), ∃ st2, parseToken st token = some st2) ∧
    ParseOpts [] = some [] :=
  ⟨fun args => ⟨_, ParseOpts_eq args⟩, fun st token => ⟨_, parseToken_eq st token⟩, rfl⟩

/-- C9: values are outer-trimmed on every append: for a flag token `f` (whatever
its inline value) and value tokens `vs` (whatever white space they contain), the
value stored under the key of `f` by ParseOpts on `f` followed by any non-empty
prefix `p` of `vs`, `vs` itself included, has no leading or trailing white space. -/
theorem ParseOpts_values_trimmed (f : GoString) (vs p : List GoString)
    (hf : strings.HasPrefix f (str "--") = true)
    (hvs : ∀ t ∈ vs, strings.HasPrefix t (str "--") = false)
    (hp : p <+: vs) (hne : p ≠ []) :
    ∃ m v, ParseOpts (f :: p) = some m ∧ m.find (flagKey f) = some v ∧
      NoLeadingSpace v ∧ NoTrailingSpace v ∧ strings.TrimSpace v = v := by
  have hpv : ∀ t ∈ p, strings.HasPrefix t (str "--") = false :=
    fun t ht => hvs t (hp.subset ht)
  obtain ⟨x, hx⟩ := fold_values_trimmed p
    (GoMap.assign [] (flagKey f) (flagValue f)) (flagKey f) hne hpv
  refine ⟨_, strings.TrimSpace x, ParseOpts_eq (f :: p), ?_, TrimSpace_noLeading x,
    TrimSpace_noTrailing x,
    TrimSpace_of_clean _ (TrimSpace_noLeading x) (TrimSpace_noTrailing x)⟩
  rw [List.foldl_cons, parseStep_flag _ f hf, hx]
  exact find_assign_self _ _ _

/-- Witness for C9: an inline value and value tokens with white space around them. -/
theorem ParseOpts_values_trimmed_witness :
    strings.HasPrefix (str "--msg=  hi ") (str "--") = true ∧
    (∀ t ∈ [str " a ", str "\t", str "b\n"], strings.HasPrefix t (str "--") = false) ∧
    [str " a ", str "\t"] <+: [str " a ", str "\t", str "b\n"] ∧
    [str " a ", str "\t"] ≠ [] ∧
    ∃ m v, ParseOpts (str "--msg=  hi " :: [str " a ", str "\t"]) = some m ∧
      m.find (flagKey (str "--msg=  hi ")) = some v ∧
      NoLeadingSpace v ∧ NoTrailingSpace v ∧ strings.TrimSpace v = v :=
  ⟨by decide, by decide, by decide, by decide,
    ParseOpts_values_trimmed (str "--msg=  hi ") [str " a ", str "\t", str "b\n"]
      [str " a ", str "\t"] (by decide) (by decide) (by decide) (by decide)⟩

/-- C10: ParseOpts composes over flag-led segments: when `ys` is empty or its first
token starts with `--`, `ParseOpts(xs ++ ys)` is `ParseOpts(xs)` overridden by
`ParseOpts(ys)`: every key of `ParseOpts(ys)` takes its value from there, every
other key keeps its value from `ParseOpts(xs)`; all three mappings have one entry
per key. -/
theorem ParseOpts_append_flag_led (xs ys : List GoString)
    (h : ∀ t, ys.head? = some t → strings.HasPrefix t (str "--") = true) :
    ∃ mx my mxy, ParseOpts xs = some mx ∧ ParseOpts ys = some my ∧
      ParseOpts (xs ++ ys) = some mxy ∧
      mx.keys.Nodup ∧ my.keys.Nodup ∧ mxy.keys.Nodup ∧
      (∀ k, mxy.find k = overridden mx my k) ∧
      (∀ k v, my.find k = some v → mxy.find k = some v) ∧
      (∀ k, my.find k = none → mxy.find k = mx.find k) := by
  have hov := (fold_flag_led ys (xs.foldl parseStep { options := [], key := [] }) h).1
  refine ⟨_, _, _, ParseOpts_eq xs, ParseOpts_eq ys, ParseOpts_eq (xs ++ ys),
    nodup_keys_fold xs _ List.nodup_nil, nodup_keys_fold ys _ List.nodup_nil,
    nodup_keys_fold (xs ++ ys) _ List.nodup_nil, ?_, ?_, ?_⟩
  · intro k
    rw [List.foldl_append]
    exact hov k
  · intro k v hv
    rw [List.foldl_append, hov k]
    unfold overridden
    rw [hv]
  · intro k hv
    rw [List.foldl_append, hov k]
    unfold overridden
    rw [hv]

/-- Witness for C10: the second segment resets `foo` and adds `baz`, `bar` stays. -/
theorem ParseOpts_append_flag_led_witness :
    (∀ t, [str "--foo", str "2", str "--baz=3"].head? = some t →
      strings.HasPrefix t (str "--") = true) ∧
    ∃ mx my mxy, ParseOpts [str "--foo", str "1", str "x", str "--bar", str "y"] = some mx ∧
      ParseOpts [str "--foo", str "2", str "--baz=3"] = some my ∧
      ParseOpts ([str "--foo", str "1", str "x", str "--bar", str "y"] ++
        [str "--foo", str "2", str "--baz=3"]) = some mxy ∧
      mx.keys.Nodup ∧ my.keys.Nodup ∧ mxy.keys.Nodup ∧
      (∀ k, mxy.find k = overridden mx my k) ∧
      (∀ k v, my.find k = some v → mxy.find k = some v) ∧
      (∀ k, my.find k = none → mxy.find k = mx.find k) :=
  ⟨by intro t ht; cases ht; decide,
    ParseOpts_append_flag_led [str "--foo", str "1", str "x", str "--bar", str "y"]
      [str "--foo", str "2", str "--baz=3"] (by intro t ht; cases ht; decide)⟩

/-! ## Properties of the settings store and of DirApp -/

/-- C6: whenever the absolute path `abs` of the working directory is computed,
DirApp returns `(abs, id, nil)` where `id` is the lower-case form of the first
non-empty value among the `app` flag, the persisted setting `app` and the base name
of `abs`: the flag wins over the setting, the setting over the base name, and the
identifier is lower-cased whatever its source. -/
theorem DirApp_priority (rt : Runtime) (fs : FileSystem) (c : Context) (wd abs : GoString)
    (h : rt.Abs wd = Except.ok abs) :
    DirApp rt fs c wd =
      (abs, rt.ToLower (firstNonEmpty
        [c.String (str "app"), ReadSetting fs (str "app"), path.Base abs]), none) ∧
    (c.String (str "app") ≠ [] →
      DirApp rt fs c wd = (abs, rt.ToLower (c.String (str "app")), none)) ∧
    (c.String (str "app") = [] → ReadSetting fs (str "app") ≠ [] →
      DirApp rt fs c wd = (abs, rt.ToLower (ReadSetting fs (str "app")), none)) ∧
    (c.String (str "app") = [] → ReadSetting fs (str "app") = [] →
      DirApp rt fs c wd = (abs, rt.ToLower (path.Base abs), none)) := by
  have hd : DirApp rt fs c wd =
      (abs, rt.ToLower
        (if (if c.String (str "app") = [] then ReadSetting fs (str "app")
              else c.String (str "app")) = [] then path.Base abs
          else (if c.String (str "app") = [] then ReadSetting fs (str "app")
              else c.String (str "app"))), none) := by
    unfold DirApp
    rw [h]
  refine ⟨?_, ?_, ?_, ?_⟩
  · rw [hd]
    unfold firstNonEmpty
    by_cases h1 : c.String (str "app") = []
    · by_cases h2 : ReadSetting fs (str "app") = []
      · by_cases h3 : path.Base abs = []
        · simp [h1, h2, h3]
        · simp [h1, h2, h3]
      · simp [h1, h2]
    · simp [h1]
  · intro h1
    rw [hd]
    simp [h1]
  · intro h1 h2
    rw [hd]
    simp [h1, h2]
  · intro h1 h2
    rw [hd]
    simp [h1, h2]

/-- Witness for C6: no `app` flag, the setting `app` holds `Web`, the directory is
`My-App`: the identifier is `web`. -/
theorem DirApp_priority_witness :
    sampleRuntime.Abs (str "My-App") = Except.ok (str "/home/dev/My-App") ∧
    DirApp sampleRuntime (WriteSetting emptyFS (str "app") (str " Web\n")).1 (appContext [])
        (str "My-App") =
      (str "/home/dev/My-App", str "web", none) :=
  ⟨rfl,
    (DirApp_priority sampleRuntime (WriteSetting emptyFS (str "app") (str " Web\n")).1
      (appContext []) (str "My-App") (str "/home/dev/My-App") rfl).1.trans (by decide)⟩

/-- After a successful `WriteSetting(S, V)`, `ReadSetting(S)` is either `V`
trimmed or the empty string. -/
theorem ReadSetting_after_write (fs : FileSystem) (S V : GoString)
    (h : (WriteSetting fs S V).2 = none) :
    ReadSetting (WriteSetting fs S V).1 S = strings.TrimSpace V ∨
      ReadSetting (WriteSetting fs S V).1 S = [] := by
  unfold WriteSetting ioutil.WriteFile at h ⊢
  cases hn : fs.node (settingPath S) with
  | none =>
    rw [hn] at h
    simp only at h ⊢
    by_cases hc : fs.creatable (settingPath S) = true
    · simp only [hc, if_true, ReadSetting, ioutil.ReadFile, Function.update_same]
      cases ownerRead (0o777 - (0o777 &&& fs.umask)) <;> simp
    · simp [hc] at h
  | some n =>
    cases n with
    | regular data mode =>
      rw [hn] at h
      simp only at h ⊢
      by_cases hw : ownerWrite mode = true
      · simp only [hw, if_true, ReadSetting, ioutil.ReadFile, Function.update_same]
        cases ownerRead mode <;> simp
      · simp [hw] at h
    | null =>
      right
      simp only [ReadSetting, ioutil.ReadFile, hn]
      decide
    | directory =>
      rw [hn] at h
      simp at h

/-- C7, counterexample: with `.convox/app` an existing file that its owner may
write and may not read, and with a setting name that leads to the null device,
`WriteSetting` succeeds and the following `ReadSetting` returns the empty string,
not the value written. -/
theorem settings_round_trip_lost :
    (WriteSetting writeOnlyFS (str "app") (str "web")).2 = none ∧
    ReadSetting (WriteSetting writeOnlyFS (str "app") (str "web")).1 (str "app") = str "" ∧
    (WriteSetting devNullFS (str "../../../../dev/null") (str "web")).2 = none ∧
    ReadSetting (WriteSetting devNullFS (str "../../../../dev/null") (str "web")).1
      (str "../../../../dev/null") = str "" ∧
    strings.TrimSpace (str "web") = str "web" := by
  decide

/-- C7, amended: settings round trip over an explicit file-system state: if
`WriteSetting(S, V)` succeeds and `.convox/S` is then a regular file that the
process may read, a following `ReadSetting(S)` returns `V` with its leading and
trailing white space trimmed. -/
theorem settings_round_trip_readable (fs : FileSystem) (S V : GoString)
    (h : (WriteSetting fs S V).2 = none)
    (hr : ∃ data mode, (WriteSetting fs S V).1.node (settingPath S) =
      some (Node.regular data mode) ∧ ownerRead mode = true) :
    ReadSetting (WriteSetting fs S V).1 S = strings.TrimSpace V ∧
    NoLeadingSpace (ReadSetting (WriteSetting fs S V).1 S) ∧
    NoTrailingSpace (ReadSetting (WriteSetting fs S V).1 S) := by
  have hread : ReadSetting (WriteSetting fs S V).1 S = strings.TrimSpace V := by
    obtain ⟨data, mode, hnode, hmode⟩ := hr
    unfold WriteSetting ioutil.WriteFile at h hnode ⊢
    cases hn : fs.node (settingPath S) with
    | none =>
      rw [hn] at h hnode
      simp only at h hnode ⊢
      by_cases hc : fs.creatable (settingPath S) = true
      · simp only [hc, if_true, Function.update_same, Option.some.injEq,
          Node.regular.injEq] at hnode
        simp only [hc, if_true, ReadSetting, ioutil.ReadFile, Function.update_same]
        rw [hnode.2, hmode]
        rfl
      · simp [hc] at h
    | some n =>
      cases n with
      | regular data0 mode0 =>
        rw [hn] at h hnode
        simp only at h hnode ⊢
        by_cases hw : ownerWrite mode0 = true
        · simp only [hw, if_true, Function.update_same, Option.some.injEq,
            Node.regular.injEq] at hnode
          simp only [hw, if_true, ReadSetting, ioutil.ReadFile, Function.update_same]
          rw [hnode.2, hmode]
          rfl
        · simp [hw] at h
      | null =>
        rw [hn] at hnode
        simp only at hnode
        rw [hn] at hnode
        simp at hnode
      | directory =>
        rw [hn] at h
        simp at h
  rw [hread]
  exact ⟨rfl, TrimSpace_noLeading V, TrimSpace_noTrailing V⟩

/-- Witness for C7 as amended: writing ` Web` and a newline to the setting `app` of
an empty file system creates a file with the bits `0755`, which reads back as `Web`. -/
theorem settings_round_trip_readable_witness :
    (WriteSetting emptyFS (str "app") (str " Web\n")).2 = none ∧
    (∃ data mode, (WriteSetting emptyFS (str "app") (str " Web\n")).1.node
        (settingPath (str "app")) = some (Node.regular data mode) ∧ ownerRead mode = true) ∧
    ReadSetting (WriteSetting emptyFS (str "app") (str " Web\n")).1 (str "app") = str "Web" :=
  ⟨by decide, ⟨str " Web\n", 0o755, by decide, by decide⟩,
    (settings_round_trip_readable emptyFS (str "app") (str " Web\n") (by decide)
      ⟨str " Web\n", 0o755, by decide, by decide⟩).1.trans (by decide)⟩

/-- C8: ReadSetting never surfaces a failure: when reading the file
`.convox/<setting>` fails, for whatever reason, ReadSetting returns the empty
string. -/
theorem ReadSetting_read_failure (fs : FileSystem) (setting : GoString) (err : GoError)
    (h : ioutil.ReadFile fs (settingPath setting) = Except.error err) :
    ReadSetting fs setting = str "" := by
  unfold ReadSetting
  rw [h]
  rfl

/-- Witness for C8: a setting that was never written, in a file system without files. -/
theorem ReadSetting_read_failure_witness :
    ioutil.ReadFile emptyFS (settingPath (str "app")) =
      Except.error "no such file or directory" ∧
    ReadSetting emptyFS (str "app") = str "" :=
  ⟨rfl, ReadSetting_read_failure emptyFS (str "app") "no such file or directory" rfl⟩

end stdcli
